import Mathlib

/-!
Verification of the append-only log storage engine and the graph-cascade
deletion algorithm of the knowledge-graph editor (src/rks/storage.py,
src/rks/models.py, src/rks/agent.py).

Modelling conventions:
* Each JSONL log file is the list of records appended so far.
* The tombstone set (a Python `set` persisted to `deleted_ids.json`) is a
  `List String` grown with insert-if-absent; only membership matters.
* Python `dict` insertion-order semantics (`out[k] = v` keeps an existing
  key at its first-insertion position and appends new keys at the end) are
  modelled by `dictInsert`.
* `datetime` timestamps are modelled as `Nat`; `float` fields (edge
  `weight`) are omitted because no storage logic reads them.
* Python `sorted(..., key=...)` is a stable sort by the key; it is modelled
  by a stable insertion sort `sortByKey`.
-/

set_option autoImplicit false

namespace RKS

/-- Node lifecycle states, from `models.NodeState`. -/
inductive NodeState where
  | EXPLORE
  | BUILD
  | ACTIVE
  | STALE
  | CONFLICTED
  | ARCHIVED
deriving DecidableEq

/-- Node kinds, from `models.NodeType`. -/
inductive NodeType where
  | ONTOLOGY
  | MECHANISM
  | DOMAIN
  | ACTION
  | ASSUMPTION
  | CONTRADICTION
  | PREDICTION
deriving DecidableEq

/-- Model of `models.KnowledgeContainer` (timestamps as `Nat`). -/
structure KnowledgeContainer where
  container_id : String
  user_id : String := "default"
  title : String
  description : String := ""
  created_at : Nat
  updated_at : Nat
deriving DecidableEq

/-- Model of `models.Source` (the `type` enum is kept as its string value). -/
structure Source where
  source_id : String
  container_id : String
  type : String := "TEXT"
  label : String
  path_or_url : String := ""
  notes : String := ""
  created_at : Nat
deriving DecidableEq

/-- Model of `models.GraphNode` (timestamps as `Nat`). -/
structure GraphNode where
  node_id : String
  container_id : String
  title : String
  node_type : NodeType := NodeType.ONTOLOGY
  state : NodeState := NodeState.EXPLORE
  definition : String := ""
  mechanism : String := ""
  boundary_conditions : String := ""
  assumptions : List String := []
  maturity_score : Nat := 0
  source_type : String := "ASSERTED"
  tags : List String := []
  version : Nat := 1
  created_at : Nat
  updated_at : Nat
deriving DecidableEq

/-- Model of `models.GraphEdge` (the float `weight` is omitted: no storage logic
reads it; the `relation_type` enum is kept as its string value). -/
structure GraphEdge where
  edge_id : String
  container_id : String
  source_node_id : String
  target_node_id : String
  relation_type : String := "PART_OF"
  condition : String := ""
  created_at : Nat
deriving DecidableEq

/-- The visible state of `storage.FileStorage`: one append-only log per
entity type plus the tombstoned-ID set. -/
structure FileStorage where
  containers : List KnowledgeContainer := []
  sources : List Source := []
  nodes : List GraphNode := []
  edges : List GraphEdge := []
  deleted : List String := []
deriving DecidableEq

/-- Python dict update `m[k] = v`: replace the value at an existing key in
place, otherwise append the new binding at the end. -/
def dictInsert {α : Type} : List (String × α) → String → α → List (String × α)
  | [], k, v => [(k, v)]
  | (k0, v0) :: m, k, v =>
      if k0 == k then (k0, v) :: m else (k0, v0) :: dictInsert m k v

/-- Python dict lookup `m.get(k)`. -/
def dictGet {α : Type} (m : List (String × α)) (k : String) : Option α :=
  (m.find? (fun p => p.1 == k)).map Prod.snd

/-- Model of `FileStorage._latest_by_id`: most recent record per ID, last write
wins, dict insertion order preserved. -/
def latest_by_id {α : Type} (idField : α → String) (rows : List α) :
    List (String × α) :=
  rows.foldl (fun m r => dictInsert m (idField r) r) []

/-- Model of `FileStorage._live`: filter out tombstoned IDs, keeping dict order. -/
def live {α : Type} (deleted : List String) (records : List (String × α)) :
    List α :=
  (records.filter (fun p => decide (p.1 ∉ deleted))).map Prod.snd

/-- Python `set.add`: insert-if-absent (membership is all that matters). -/
def addDeleted (d : List String) (x : String) : List String :=
  if x ∈ d then d else d ++ [x]

/-- One step of a stable insertion sort by a `Nat` key. -/
def insertByKey {α : Type} (key : α → Nat) (x : α) : List α → List α
  | [] => [x]
  | y :: ys => if key x ≤ key y then x :: y :: ys else y :: insertByKey key x ys

/-- Python `sorted(l, key=...)`: stable sort by the key. -/
def sortByKey {α : Type} (key : α → Nat) (l : List α) : List α :=
  l.foldr (insertByKey key) []

/-- Model of `FileStorage.list_containers`. -/
def list_containers (s : FileStorage) : List KnowledgeContainer :=
  sortByKey (fun c => c.created_at)
    (live s.deleted (latest_by_id (fun c => c.container_id) s.containers))

/-- Model of `FileStorage.upsert_container`: append-only write. -/
def upsert_container (s : FileStorage) (c : KnowledgeContainer) : FileStorage :=
  { s with containers := s.containers ++ [c] }

/-- Model of `FileStorage.get_container`. -/
def get_container (s : FileStorage) (container_id : String) :
    Option KnowledgeContainer :=
  match dictGet (latest_by_id (fun c => c.container_id) s.containers) container_id with
  | some r => if container_id ∈ s.deleted then none else some r
  | none => none

/-- Model of `FileStorage.list_sources`. -/
def list_sources (s : FileStorage) (container_id : String) : List Source :=
  sortByKey (fun src => src.created_at)
    ((live s.deleted (latest_by_id (fun src => src.source_id) s.sources)).filter
      (fun src => src.container_id == container_id))

/-- Model of `FileStorage.upsert_source`. -/
def upsert_source (s : FileStorage) (src : Source) : FileStorage :=
  { s with sources := s.sources ++ [src] }

/-- Model of `FileStorage.delete_source`. -/
def delete_source (s : FileStorage) (source_id : String) : FileStorage :=
  { s with deleted := addDeleted s.deleted source_id }

/-- Model of `FileStorage.list_nodes`: live latest records of the container, sorted
by creation time. -/
def list_nodes (s : FileStorage) (container_id : String) : List GraphNode :=
  sortByKey (fun n => n.created_at)
    ((live s.deleted (latest_by_id (fun n => n.node_id) s.nodes)).filter
      (fun n => n.container_id == container_id))

/-- Model of `FileStorage.get_node`. -/
def get_node (s : FileStorage) (node_id : String) : Option GraphNode :=
  match dictGet (latest_by_id (fun n => n.node_id) s.nodes) node_id with
  | some r => if node_id ∈ s.deleted then none else some r
  | none => none

/-- Model of `FileStorage.upsert_node`: append-only write. -/
def upsert_node (s : FileStorage) (node : GraphNode) : FileStorage :=
  { s with nodes := s.nodes ++ [node] }

/-- Model of `FileStorage.list_edges`: live latest records of the container, in log
order (note: no sort, unlike the other three list operations). -/
def list_edges (s : FileStorage) (container_id : String) : List GraphEdge :=
  (live s.deleted (latest_by_id (fun e => e.edge_id) s.edges)).filter
    (fun e => e.container_id == container_id)

/-- Model of `FileStorage.get_edge`. -/
def get_edge (s : FileStorage) (edge_id : String) : Option GraphEdge :=
  match dictGet (latest_by_id (fun e => e.edge_id) s.edges) edge_id with
  | some r => if edge_id ∈ s.deleted then none else some r
  | none => none

/-- Model of `FileStorage.upsert_edge`. -/
def upsert_edge (s : FileStorage) (edge : GraphEdge) : FileStorage :=
  { s with edges := s.edges ++ [edge] }

/-- Model of `FileStorage.delete_edge`. -/
def delete_edge (s : FileStorage) (edge_id : String) : FileStorage :=
  { s with deleted := addDeleted s.deleted edge_id }

/-- Model of `FileStorage.delete_node`: collect the node's container edges before
tombstoning, tombstone every edge incident to the node, then the node. -/
def delete_node (s : FileStorage) (node_id : String) : FileStorage :=
  let d1 :=
    match get_node s node_id with
    | some node =>
        ((list_edges s node.container_id).filter
            (fun e => e.source_node_id == node_id || e.target_node_id == node_id)).foldl
          (fun d e => addDeleted d e.edge_id) s.deleted
    | none => s.deleted
  { s with deleted := addDeleted d1 node_id }

/-- Model of `FileStorage.delete_container`: tombstone the container, then its
sources, nodes and edges, each list being read from the state left by the
previous loop (as the source does). -/
def delete_container (s : FileStorage) (container_id : String) : FileStorage :=
  let d0 := addDeleted s.deleted container_id
  let d1 := ((list_sources { s with deleted := d0 } container_id).foldl
    (fun d src => addDeleted d src.source_id) d0)
  let d2 := ((list_nodes { s with deleted := d1 } container_id).foldl
    (fun d n => addDeleted d n.node_id) d1)
  let d3 := ((list_edges { s with deleted := d2 } container_id).foldl
    (fun d e => addDeleted d e.edge_id) d2)
  { s with deleted := d3 }

/-- The incoming-edge index of `FileStorage.delete_node_cascade`:
`{n.node_id: [] for n in all_nodes}` then one append of the source ID per
edge whose target is a known node (no deduplication of sources). -/
def buildIncoming (all_nodes : List GraphNode) (all_edges : List GraphEdge) :
    List (String × List String) :=
  let init := all_nodes.foldl (fun m n => dictInsert m n.node_id []) []
  all_edges.foldl
    (fun m e =>
      match dictGet m e.target_node_id with
      | some ps => dictInsert m e.target_node_id (ps ++ [e.source_node_id])
      | none => m)
    init

/-- The BFS loop of `FileStorage.delete_node_cascade`, with explicit fuel
(`none` on exhaustion; `cascadeBFS_total` below shows the fuel used by
`delete_node_cascade` always suffices).  A child is enqueued only if its
incoming list is exactly `[current]` (`len(parents) == 1 and
parents[0] == current`). -/
def cascadeBFS (all_edges : List GraphEdge) (incoming : List (String × List String)) :
    Nat → List String → List String → List String → Option (List String)
  | _, [], _, to_delete => some to_delete
  | 0, _ :: _, _, _ => none
  | fuel + 1, current :: queue, visited, to_delete =>
      if current ∈ visited then
        cascadeBFS all_edges incoming fuel queue visited to_delete
      else
        let children := ((all_edges.filter
          (fun e => e.source_node_id == current)).map (fun e => e.target_node_id))
        let enq := children.filter (fun child =>
          match (dictGet incoming child).getD [] with
          | [p] => p == current
          | _ => false)
        cascadeBFS all_edges incoming fuel (queue ++ enq) (current :: visited)
          (to_delete ++ [current])

/-- The fuel given to the BFS loop: an upper bound on the loop's step count
(proved sufficient by `cascadeBFS_total`). -/
def cascadeFuel (all_edges : List GraphEdge) : Nat :=
  (all_edges.length + 1) * (all_edges.length + 1) + 1

/-- Model of `FileStorage.delete_node_cascade`: empty result if the target is not
live; otherwise BFS over the container snapshot gated on exclusive
dependency, then `delete_node` on each collected ID in order.  Returns the
collected IDs and the final state. -/
def delete_node_cascade (s : FileStorage) (node_id : String) :
    List String × FileStorage :=
  match get_node s node_id with
  | none => ([], s)
  | some node =>
      let all_nodes := list_nodes s node.container_id
      let all_edges := list_edges s node.container_id
      let incoming := buildIncoming all_nodes all_edges
      let to_delete :=
        (cascadeBFS all_edges incoming (cascadeFuel all_edges) [node_id] [] []).getD []
      (to_delete, to_delete.foldl delete_node s)

/-! ### Generic lemmas about the storage helpers -/

theorem subset_addDeleted (d : List String) (x : String) : d ⊆ addDeleted d x := by
  unfold addDeleted
  split
  · exact fun y hy => hy
  · exact fun y hy => List.mem_append_left _ hy

theorem mem_addDeleted_self (d : List String) (x : String) : x ∈ addDeleted d x := by
  unfold addDeleted
  split
  · assumption
  · exact List.mem_append_right _ (List.mem_singleton.mpr rfl)

theorem mem_addDeleted_iff (d : List String) (x y : String) :
    y ∈ addDeleted d x ↔ y ∈ d ∨ y = x := by
  unfold addDeleted
  split
  · rename_i hx
    constructor
    · exact Or.inl
    · rintro (h | rfl)
      · exact h
      · exact hx
  · simp [List.mem_append]

theorem subset_foldl_addDeleted {α : Type} (f : α → String) (l : List α) :
    ∀ d : List String, d ⊆ l.foldl (fun d a => addDeleted d (f a)) d := by
  induction l with
  | nil => exact fun d y hy => hy
  | cons a l ih =>
      intro d y hy
      exact ih (addDeleted d (f a)) (subset_addDeleted d (f a) hy)

theorem mem_foldl_addDeleted {α : Type} (f : α → String) (l : List α) :
    ∀ (d : List String) (a : α), a ∈ l → f a ∈ l.foldl (fun d a => addDeleted d (f a)) d := by
  induction l with
  | nil => intro d a h; cases h
  | cons b l ih =>
      intro d a h
      rcases List.mem_cons.mp h with rfl | h
      · exact subset_foldl_addDeleted f l _ (mem_addDeleted_self d (f a))
      · exact ih _ a h

theorem dictGet_cons_eq {α : Type} (k0 : String) (v0 : α) (m : List (String × α))
    (k : String) (h : (k0 == k) = true) :
    dictGet ((k0, v0) :: m) k = some v0 := by
  simp [dictGet, List.find?, h]

theorem dictGet_cons_ne {α : Type} (k0 : String) (v0 : α) (m : List (String × α))
    (k : String) (h : (k0 == k) = false) :
    dictGet ((k0, v0) :: m) k = dictGet m k := by
  simp [dictGet, List.find?, h]

theorem dictGet_dictInsert_self {α : Type} (m : List (String × α)) (k : String) (v : α) :
    dictGet (dictInsert m k v) k = some v := by
  induction m with
  | nil => simp [dictInsert, dictGet, List.find?]
  | cons p m ih =>
      obtain ⟨k0, v0⟩ := p
      by_cases h : k0 = k
      · subst h
        rw [dictInsert, if_pos (beq_self_eq_true k0)]
        exact dictGet_cons_eq _ _ _ _ (beq_self_eq_true k0)
      · have hb : (k0 == k) = false := beq_eq_false_iff_ne.mpr h
        rw [dictInsert, if_neg (by simp [hb]), dictGet_cons_ne _ _ _ _ hb]
        exact ih

theorem mem_dictInsert {α : Type} (m : List (String × α)) (k : String) (v : α)
    (p : String × α) (hp : p ∈ dictInsert m k v) : p ∈ m ∨ p = (k, v) := by
  induction m with
  | nil =>
      simp [dictInsert] at hp
      exact Or.inr hp
  | cons q m ih =>
      obtain ⟨k0, v0⟩ := q
      by_cases h : k0 = k
      · subst h
        rw [dictInsert, if_pos (beq_self_eq_true k0)] at hp
        rcases List.mem_cons.mp hp with rfl | hmem
        · exact Or.inr rfl
        · exact Or.inl (List.mem_cons_of_mem _ hmem)
      · have hb : (k0 == k) = false := beq_eq_false_iff_ne.mpr h
        rw [dictInsert, if_neg (by simp [hb])] at hp
        rcases List.mem_cons.mp hp with rfl | hmem
        · exact Or.inl (List.mem_cons_self _ _)
        · rcases ih hmem with h2 | h2
          · exact Or.inl (List.mem_cons_of_mem _ h2)
          · exact Or.inr h2

theorem foldl_dictInsert_invariant {α : Type} (idf : α → String) (Q : α → Prop) :
    ∀ (rows : List α) (m : List (String × α)),
      (∀ r ∈ rows, Q r) → (∀ p ∈ m, p.1 = idf p.2 ∧ Q p.2) →
      ∀ p ∈ rows.foldl (fun m r => dictInsert m (idf r) r) m, p.1 = idf p.2 ∧ Q p.2 := by
  intro rows
  induction rows with
  | nil => intro m _ hm p hp; exact hm p hp
  | cons r rows ih =>
      intro m hrows hm p hp
      refine ih (dictInsert m (idf r) r)
        (fun x hx => hrows x (List.mem_cons_of_mem _ hx)) ?_ p hp
      intro q hq
      rcases mem_dictInsert m (idf r) r q hq with h2 | rfl
      · exact hm q h2
      · exact ⟨rfl, hrows r (List.mem_cons_self _ _)⟩

theorem latest_by_id_invariant {α : Type} (idf : α → String) (rows : List α) :
    ∀ p ∈ latest_by_id idf rows, p.1 = idf p.2 ∧ p.2 ∈ rows :=
  foldl_dictInsert_invariant idf (fun r => r ∈ rows) rows [] (fun _ hr => hr)
    (by intro p hp; cases hp)

theorem dictGet_eq_some_mem {α : Type} (m : List (String × α)) (k : String) (v : α)
    (h : dictGet m k = some v) : (k, v) ∈ m := by
  unfold dictGet at h
  cases hf : m.find? (fun p => p.1 == k) with
  | none => rw [hf] at h; cases h
  | some p =>
      rw [hf] at h
      obtain ⟨k1, v1⟩ := p
      have hp := List.find?_some hf
      have hk : k1 = k := by simpa using hp
      have hv : v1 = v := by simpa using h
      subst hk
      subst hv
      exact List.mem_of_find?_eq_some hf

theorem latest_by_id_append_single {α : Type} (idf : α → String) (rows : List α) (r : α) :
    latest_by_id idf (rows ++ [r]) = dictInsert (latest_by_id idf rows) (idf r) r := by
  unfold latest_by_id
  rw [List.foldl_append]
  rfl

theorem get_node_some {s : FileStorage} {nid : String} {n : GraphNode}
    (h : get_node s nid = some n) :
    n.node_id = nid ∧ n ∈ s.nodes ∧ nid ∉ s.deleted := by
  unfold get_node at h
  cases hg : dictGet (latest_by_id (fun n => n.node_id) s.nodes) nid with
  | none => rw [hg] at h; cases h
  | some r =>
      rw [hg] at h
      by_cases hd : nid ∈ s.deleted
      · simp [hd] at h
      · simp only [if_neg hd, Option.some.injEq] at h
        rw [← h]
        have hinv := latest_by_id_invariant (fun n => n.node_id) s.nodes (nid, r)
          (dictGet_eq_some_mem _ _ _ hg)
        exact ⟨hinv.1.symm, hinv.2, hd⟩

theorem get_node_some_not_deleted {s : FileStorage} {nid : String} {n : GraphNode}
    (h : get_node s nid = some n) : nid ∉ s.deleted :=
  (get_node_some h).2.2

theorem get_node_upsert_self (s : FileStorage) (n : GraphNode) (nid : String)
    (hid : n.node_id = nid) (hdel : nid ∉ s.deleted) :
    get_node (upsert_node s n) nid = some n := by
  have hget : dictGet (latest_by_id (fun x => x.node_id) (s.nodes ++ [n])) nid = some n := by
    rw [latest_by_id_append_single]
    simp only [hid]
    exact dictGet_dictInsert_self _ _ _
  unfold get_node upsert_node
  simp only [hget, if_neg hdel]

/-! ### Stable insertion sort lemmas (Python `sorted` model) -/

theorem mem_insertByKey {α : Type} (key : α → Nat) (x a : α) (l : List α)
    (h : a ∈ insertByKey key x l) : a = x ∨ a ∈ l := by
  induction l with
  | nil => simpa [insertByKey] using h
  | cons y ys ih =>
      unfold insertByKey at h
      split at h
      · rcases List.mem_cons.mp h with rfl | h2
        · exact Or.inl rfl
        · exact Or.inr h2
      · rcases List.mem_cons.mp h with rfl | h2
        · exact Or.inr (List.mem_cons_self _ _)
        · rcases ih h2 with h3 | h3
          · exact Or.inl h3
          · exact Or.inr (List.mem_cons_of_mem _ h3)

theorem mem_sortByKey {α : Type} (key : α → Nat) (l : List α) (a : α)
    (h : a ∈ sortByKey key l) : a ∈ l := by
  induction l with
  | nil => exact absurd h (List.not_mem_nil a)
  | cons y ys ih =>
      rcases mem_insertByKey key y a _ h with rfl | h2
      · exact List.mem_cons_self _ _
      · exact List.mem_cons_of_mem _ (ih h2)

theorem pairwise_insertByKey {α : Type} (key : α → Nat) (x : α) (l : List α)
    (h : List.Pairwise (fun a b => key a ≤ key b) l) :
    List.Pairwise (fun a b => key a ≤ key b) (insertByKey key x l) := by
  induction l with
  | nil => simp [insertByKey]
  | cons y ys ih =>
      unfold insertByKey
      rcases List.pairwise_cons.mp h with ⟨hy, hys⟩
      split
      · rename_i hle
        refine List.pairwise_cons.mpr ⟨?_, h⟩
        intro b hb
        rcases List.mem_cons.mp hb with rfl | hb
        · exact hle
        · exact le_trans hle (hy b hb)
      · rename_i hgt
        push_neg at hgt
        refine List.pairwise_cons.mpr ⟨?_, ih hys⟩
        intro b hb
        rcases mem_insertByKey key x b ys hb with rfl | hb
        · exact le_of_lt hgt
        · exact hy b hb

theorem pairwise_sortByKey {α : Type} (key : α → Nat) (l : List α) :
    List.Pairwise (fun a b => key a ≤ key b) (sortByKey key l) := by
  induction l with
  | nil => simp [sortByKey]
  | cons y ys ih => exact pairwise_insertByKey key y _ ih

/-! ### Concrete worked examples (all in container "c") -/

/-- Concrete node in container "c" with title equal to its ID. -/
def mkNode (id : String) (t : Nat) : GraphNode :=
  { node_id := id, container_id := "c", title := id, created_at := t, updated_at := t }

/-- Concrete edge in container "c". -/
def mkEdge (id src tgt : String) (t : Nat) : GraphEdge :=
  { edge_id := id, container_id := "c", source_node_id := src,
    target_node_id := tgt, created_at := t }

/-- The container "c" of the worked examples. -/
def mkCont : KnowledgeContainer :=
  { container_id := "c", title := "c", created_at := 0, updated_at := 0 }

/-- Graph A → B, B → C, D → C (spec §8 cascade-correctness fixture). -/
def c5Store : FileStorage :=
  { containers := [mkCont],
    nodes := [mkNode "A" 1, mkNode "B" 2, mkNode "C" 3, mkNode "D" 4],
    edges := [mkEdge "eAB" "A" "B" 5, mkEdge "eBC" "B" "C" 6, mkEdge "eDC" "D" "C" 7] }

/-- Two parallel edges from "A" to "B". -/
def c1Store : FileStorage :=
  { containers := [mkCont],
    nodes := [mkNode "A" 1, mkNode "B" 2],
    edges := [mkEdge "e1" "A" "B" 3, mkEdge "e2" "A" "B" 4] }

/-- Cycle A → B → A with external E → B (spec §8 cascade-on-cycle fixture). -/
def c6Store : FileStorage :=
  { containers := [mkCont],
    nodes := [mkNode "A" 1, mkNode "B" 2, mkNode "E" 3],
    edges := [mkEdge "eAB" "A" "B" 4, mkEdge "eBA" "B" "A" 5, mkEdge "eEB" "E" "B" 6] }

/-- A store whose only node "X" is already tombstoned. -/
def c7Store : FileStorage :=
  { containers := [mkCont], nodes := [mkNode "X" 1], deleted := ["X"] }

/-! ### Claims -/

/-- Claim C7: if the target node ID does not resolve to a live node (never
written or tombstoned), `delete_node_cascade` returns an empty list and
leaves the store's visible state unchanged. -/
theorem C7_cascade_missing_target_noop (s : FileStorage) (node_id : String)
    (h : get_node s node_id = none) :
    delete_node_cascade s node_id = ([], s) := by
  unfold delete_node_cascade
  rw [h]

/-- Witness for C7: concrete store whose target node is tombstoned. -/
theorem C7_witness :
    get_node c7Store "X" = none ∧ delete_node_cascade c7Store "X" = ([], c7Store) :=
  ⟨by decide, C7_cascade_missing_target_noop c7Store "X" (by decide)⟩

/-- Claim C5: on the graph A → B, B → C, D → C, cascade-deleting A returns
exactly [A, B] (target first), leaves C and D live, tombstones B's incident
edges (A → B and B → C), and leaves the edge D → C live. -/
theorem C5_cascade_correctness :
    (delete_node_cascade c5Store "A").1 = ["A", "B"] ∧
    get_node (delete_node_cascade c5Store "A").2 "C" = some (mkNode "C" 3) ∧
    get_node (delete_node_cascade c5Store "A").2 "D" = some (mkNode "D" 4) ∧
    "eAB" ∈ (delete_node_cascade c5Store "A").2.deleted ∧
    "eBC" ∈ (delete_node_cascade c5Store "A").2.deleted ∧
    "eDC" ∉ (delete_node_cascade c5Store "A").2.deleted ∧
    list_edges (delete_node_cascade c5Store "A").2 "c" = [mkEdge "eDC" "D" "C" 7] := by
  decide

/-- Claim C1 counterexample: in `c1Store` every incoming edge of child "B"
originates from the single source "A" (two parallel edges).  The claim says
"B" is still enqueued for deletion when "A" is processed, but the incoming
index keeps one entry per edge (no deduplication by source ID), so the
cascade deletes only "A" and "B" stays live. -/
theorem C1_counterexample :
    "B" ∉ (delete_node_cascade c1Store "A").1 ∧
    get_node (delete_node_cascade c1Store "A").2 "B" = some (mkNode "B" 2) := by
  decide

/-- Claim C1 (amended): the incoming index holds one entry per edge, not
per distinct source (`["A", "A"]` for "B"), and the "exclusively dependent"
test requires the incoming list to be exactly `[current]`, so a child with
parallel edges from the current node is not enqueued: the cascade returns
["A"] only and "B" survives. -/
theorem C1_amended_edge_count_not_source_dedup :
    buildIncoming (list_nodes c1Store "c") (list_edges c1Store "c") =
      [("A", []), ("B", ["A", "A"])] ∧
    (delete_node_cascade c1Store "A").1 = ["A"] ∧
    "A" ∈ (delete_node_cascade c1Store "A").2.deleted ∧
    get_node (delete_node_cascade c1Store "A").2 "B" = some (mkNode "B" 2) := by
  decide

/-! ### Termination of the cascade BFS -/

/-- Number of members of `pop` not yet visited (the decreasing part of the
BFS measure). -/
def countUnvisited (pop visited : List String) : Nat :=
  (pop.filter (fun x => decide (x ∉ visited))).length

theorem length_filter_mono {α : Type} (p q : α → Bool) (l : List α)
    (h : ∀ a, p a = true → q a = true) :
    (l.filter p).length ≤ (l.filter q).length := by
  induction l with
  | nil => exact Nat.le_refl _
  | cons a l ih =>
      simp only [List.filter_cons]
      by_cases hp : p a = true
      · rw [if_pos hp, if_pos (h a hp)]
        simpa using ih
      · rw [if_neg hp]
        by_cases hq : q a = true
        · rw [if_pos hq]
          exact le_trans ih (Nat.le_succ _)
        · rw [if_neg hq]
          exact ih

theorem countUnvisited_cons_lt (pop visited : List String) (current : String)
    (hmem : current ∈ pop) (hnv : current ∉ visited) :
    countUnvisited pop (current :: visited) < countUnvisited pop visited := by
  induction pop with
  | nil => cases hmem
  | cons a pop ih =>
      unfold countUnvisited
      simp only [List.filter_cons]
      by_cases hac : a = current
      · subst hac
        have hmono : ((pop.filter (fun x => decide (x ∉ a :: visited))).length)
            ≤ ((pop.filter (fun x => decide (x ∉ visited))).length) :=
          length_filter_mono _ _ pop (by intro b hb; simp at hb ⊢; exact hb.2)
        simp only [decide_eq_true_eq]
        rw [if_neg (by simp), if_pos (by simpa using hnv)]
        simp only [List.length_cons]
        omega
      · have hmem2 : current ∈ pop := by
          rcases List.mem_cons.mp hmem with h | h
          · exact absurd h.symm hac
          · exact h
        have ihx := ih hmem2
        unfold countUnvisited at ihx
        simp only [decide_eq_true_eq]
        by_cases hav : a ∈ visited
        · rw [if_neg (by simp [hav]), if_neg (by simp [hav])]
          exact ihx
        · rw [if_pos (by simp [hav, hac]), if_pos (by simpa using hav)]
          simp only [List.length_cons]
          omega

theorem cascadeBFS_isSome (all_edges : List GraphEdge)
    (incoming : List (String × List String)) (pop : List String)
    (htgt : ∀ e ∈ all_edges, e.target_node_id ∈ pop) :
    ∀ (fuel : Nat) (queue visited acc : List String),
      (∀ x ∈ queue, x ∈ pop) →
      queue.length + (all_edges.length + 1) * countUnvisited pop visited ≤ fuel →
      (cascadeBFS all_edges incoming fuel queue visited acc).isSome = true := by
  intro fuel
  induction fuel with
  | zero =>
      intro queue visited acc hq hm
      cases queue with
      | nil => rfl
      | cons current rest =>
          simp only [List.length_cons] at hm
          omega
  | succ fuel ih =>
      intro queue visited acc hq hm
      cases queue with
      | nil => rfl
      | cons current rest =>
          simp only [cascadeBFS]
          by_cases hcv : current ∈ visited
          · rw [if_pos hcv]
            refine ih rest visited acc (fun x hx => hq x (List.mem_cons_of_mem _ hx)) ?_
            simp only [List.length_cons] at hm
            omega
          · rw [if_neg hcv]
            apply ih
            · intro x hx
              rcases List.mem_append.mp hx with h | h
              · exact hq x (List.mem_cons_of_mem _ h)
              · have hch := List.mem_of_mem_filter h
                obtain ⟨e, he, rfl⟩ := List.mem_map.mp hch
                exact htgt e (List.mem_of_mem_filter he)
            · have hlt : countUnvisited pop (current :: visited) < countUnvisited pop visited :=
                countUnvisited_cons_lt pop visited current
                  (hq current (List.mem_cons_self _ _)) hcv
              have henq : (((all_edges.filter
                    (fun e => e.source_node_id == current)).map
                      (fun e => e.target_node_id)).filter
                    (fun child =>
                      match (dictGet incoming child).getD [] with
                      | [p] => p == current
                      | _ => false)).length ≤ all_edges.length := by
                refine le_trans (List.length_filter_le _ _) ?_
                rw [List.length_map]
                exact List.length_filter_le _ _
              have hmul : (all_edges.length + 1) * (countUnvisited pop (current :: visited) + 1)
                  ≤ (all_edges.length + 1) * countUnvisited pop visited :=
                Nat.mul_le_mul_left _ hlt
              rw [Nat.mul_add, Nat.mul_one] at hmul
              simp only [List.length_append, List.length_cons] at hm ⊢
              omega

/-- Claim C6: the cascade BFS terminates on every finite graph, including
cyclic ones: with the fuel `delete_node_cascade` supplies (`cascadeFuel`),
the loop always completes from any start node over any edge snapshot and
incoming index; and on the cycle A → B → A with external edge E → B,
deleting A returns exactly ["A"] while "B" (which has the second distinct
parent "E") and "E" stay live. -/
theorem C6_cascade_cycle_terminates :
    (∀ (all_edges : List GraphEdge) (incoming : List (String × List String))
        (node_id : String) (acc : List String),
        (cascadeBFS all_edges incoming (cascadeFuel all_edges)
          [node_id] [] acc).isSome = true) ∧
    (delete_node_cascade c6Store "A").1 = ["A"] ∧
    get_node (delete_node_cascade c6Store "A").2 "B" = some (mkNode "B" 2) ∧
    get_node (delete_node_cascade c6Store "A").2 "E" = some (mkNode "E" 3) := by
  refine ⟨?_, by decide, by decide, by decide⟩
  intro all_edges incoming node_id acc
  apply cascadeBFS_isSome all_edges incoming
    (node_id :: all_edges.map (fun e => e.target_node_id))
    (fun e he => List.mem_cons_of_mem _ (List.mem_map_of_mem _ he))
  · intro x hx
    rcases List.mem_singleton.mp hx with rfl
    exact List.mem_cons_self _ _
  · have hcount : countUnvisited (node_id :: all_edges.map (fun e => e.target_node_id)) []
        = all_edges.length + 1 := by
      unfold countUnvisited
      rw [List.filter_eq_self.mpr (by intro a _; simp)]
      simp
    rw [hcount]
    unfold cascadeFuel
    simp only [List.length_cons, List.length_nil]
    omega

/-! ### Last write wins, delete_node behaviour -/

/-- Claim C3: for any ID written N ≥ 1 times via `upsert_node` and not
tombstoned, `get_node` returns exactly the payload of the Nth
(last-appended) write: the winner is chosen by log-append order, not by
any timestamp field. -/
theorem C3_last_write_wins (nid : String) (w : GraphNode) :
    ∀ (ns : List GraphNode) (s : FileStorage),
      ns.getLast? = some w → (∀ n ∈ ns, n.node_id = nid) → nid ∉ s.deleted →
      get_node (ns.foldl upsert_node s) nid = some w := by
  intro ns
  induction ns with
  | nil => intro s hlast _ _; cases hlast
  | cons n ns ih =>
      intro s hlast hids hdel
      cases ns with
      | nil =>
          simp only [List.getLast?_singleton, Option.some.injEq] at hlast
          subst hlast
          exact get_node_upsert_self s n nid (hids n (List.mem_cons_self _ _)) hdel
      | cons m ms =>
          rw [List.getLast?_cons_cons] at hlast
          exact ih (upsert_node s n) hlast
            (fun x hx => hids x (List.mem_cons_of_mem _ hx)) hdel

/-- First write of the C3 witness (same ID, distinct payload). -/
def c3Node1 : GraphNode := { mkNode "X" 1 with title := "first" }

/-- Second write of the C3 witness (same ID, distinct payload, and an
earlier timestamp than the first write, showing append order wins). -/
def c3Node2 : GraphNode := { mkNode "X" 0 with title := "second" }

/-- Witness for C3: two writes of "X" with distinct payloads; `get_node`
returns the second (last-appended) one. -/
theorem C3_witness :
    get_node ([c3Node1, c3Node2].foldl upsert_node {}) "X" = some c3Node2 :=
  C3_last_write_wins "X" c3Node2 [c3Node1, c3Node2] {} rfl (by decide) (by decide)

/-- Claim C8: `delete_node` tombstones the node and every edge in the
node's container whose source or target is the node, the edge set being
read before the node is tombstoned (edge listing does not check endpoint
liveness, so edges whose other endpoint is already dead are included). -/
theorem C8_delete_node_tombstones_incident_edges (s : FileStorage) (nid : String)
    (node : GraphNode) (h : get_node s nid = some node) :
    nid ∈ (delete_node s nid).deleted ∧
    ∀ e ∈ list_edges s node.container_id,
      e.source_node_id = nid ∨ e.target_node_id = nid →
      e.edge_id ∈ (delete_node s nid).deleted := by
  simp only [delete_node, h]
  constructor
  · exact mem_addDeleted_self _ _
  · intro e he hcond
    apply subset_addDeleted
    refine mem_foldl_addDeleted (fun e => e.edge_id) _ s.deleted e ?_
    refine List.mem_filter.mpr ⟨he, ?_⟩
    rcases hcond with h1 | h1 <;> simp [h1]

/-- Store for the C8 witness: node "X" is live, node "Y" is already
tombstoned, and the live edge "eXY" joins X to the dead Y. -/
def c8Store : FileStorage :=
  { containers := [mkCont],
    nodes := [mkNode "X" 1, mkNode "Y" 2],
    edges := [mkEdge "eXY" "X" "Y" 3],
    deleted := ["Y"] }

/-- Witness for C8: deleting "X" tombstones "X" and the edge "eXY" even
though the other endpoint "Y" is already dead. -/
theorem C8_witness :
    "X" ∈ (delete_node c8Store "X").deleted ∧
    "eXY" ∈ (delete_node c8Store "X").deleted :=
  ⟨(C8_delete_node_tombstones_incident_edges c8Store "X" (mkNode "X" 1) (by decide)).1,
   (C8_delete_node_tombstones_incident_edges c8Store "X" (mkNode "X" 1) (by decide)).2
     (mkEdge "eXY" "X" "Y" 3) (by decide) (Or.inl rfl)⟩

/-- Claim C10: `delete_node` on an ID that does not resolve to a live node
adds only that ID to the tombstone set and tombstones no edges: provided no
edge record carries that ID as its own edge ID, every container's edge
listing is unchanged, so all edges referencing the ID stay live. -/
theorem C10_delete_node_dead_target_frame (s : FileStorage) (nid cid : String)
    (h : get_node s nid = none) (hedges : ∀ e ∈ s.edges, e.edge_id ≠ nid) :
    (delete_node s nid).deleted = addDeleted s.deleted nid ∧
    list_edges (delete_node s nid) cid = list_edges s cid := by
  have hdel : (delete_node s nid).deleted = addDeleted s.deleted nid := by
    simp only [delete_node, h]
  refine ⟨hdel, ?_⟩
  have hedg : (delete_node s nid).edges = s.edges := rfl
  have hfilter : (latest_by_id (fun e => e.edge_id) s.edges).filter
      (fun p => decide (p.1 ∉ addDeleted s.deleted nid))
      = (latest_by_id (fun e => e.edge_id) s.edges).filter
      (fun p => decide (p.1 ∉ s.deleted)) := by
    apply List.filter_congr
    intro p hp
    have hinv := latest_by_id_invariant (fun e => e.edge_id) s.edges p hp
    have hne : p.1 ≠ nid := by
      rw [hinv.1]
      exact hedges p.2 hinv.2
    have hiff : (p.1 ∈ addDeleted s.deleted nid) ↔ (p.1 ∈ s.deleted) := by
      rw [mem_addDeleted_iff]
      simp [hne]
    simp [hiff]
  rw [list_edges, list_edges, live, live, hdel, hedg, hfilter]

/-- Store for the C10 witness: the edge "eXY" references node ID "Y" that
was never written as a node. -/
def c10Store : FileStorage :=
  { containers := [mkCont],
    nodes := [mkNode "X" 1],
    edges := [mkEdge "eXY" "X" "Y" 3] }

/-- Witness for C10: deleting the unwritten node ID "Y" adds only "Y" to
the tombstones and leaves the edge listing of container "c" unchanged. -/
theorem C10_witness :
    (delete_node c10Store "Y").deleted = addDeleted c10Store.deleted "Y" ∧
    list_edges (delete_node c10Store "Y") "c" = list_edges c10Store "c" :=
  C10_delete_node_dead_target_frame c10Store "Y" "c" (by decide) (by decide)

/-! ### Tombstone monotonicity and isolation -/

theorem deleted_subset_delete_node (s : FileStorage) (nid : String) :
    s.deleted ⊆ (delete_node s nid).deleted := by
  unfold delete_node
  cases h : get_node s nid with
  | some node =>
      simp only [h]
      intro y hy
      exact subset_addDeleted _ _ (subset_foldl_addDeleted _ _ _ hy)
  | none =>
      simp only [h]
      intro y hy
      exact subset_addDeleted _ _ hy

theorem deleted_subset_foldl_delete_node (l : List String) :
    ∀ s : FileStorage, s.deleted ⊆ (l.foldl delete_node s).deleted := by
  induction l with
  | nil => exact fun s y hy => hy
  | cons a l ih =>
      intro s y hy
      exact ih (delete_node s a) (deleted_subset_delete_node s a hy)

theorem deleted_subset_cascade (s : FileStorage) (nid : String) :
    s.deleted ⊆ (delete_node_cascade s nid).2.deleted := by
  unfold delete_node_cascade
  cases h : get_node s nid with
  | none =>
      simp only [h]
      exact fun y hy => hy
  | some node =>
      simp only [h]
      exact deleted_subset_foldl_delete_node _ s

theorem deleted_subset_delete_container (s : FileStorage) (cid : String) :
    s.deleted ⊆ (delete_container s cid).deleted := by
  intro y hy
  simp only [delete_container]
  apply subset_foldl_addDeleted
  apply subset_foldl_addDeleted
  apply subset_foldl_addDeleted
  exact subset_addDeleted _ _ hy

/-- Any record produced by a live latest-per-ID view has a non-tombstoned
ID. -/
theorem live_id_not_deleted {α : Type} (idf : α → String) (rows : List α)
    (deleted : List String) (a : α) (ha : a ∈ live deleted (latest_by_id idf rows)) :
    idf a ∉ deleted := by
  unfold live at ha
  obtain ⟨p, hp, rfl⟩ := List.mem_map.mp ha
  have hfil := List.mem_filter.mp hp
  have hinv := latest_by_id_invariant idf rows p hfil.1
  have hnd : p.1 ∉ deleted := by simpa using hfil.2
  rw [hinv.1] at hnd
  exact hnd

/-- The write operations of the store, for stating store-wide invariants. -/
inductive StorageOp where
  | upsertContainer (c : KnowledgeContainer)
  | deleteContainer (container_id : String)
  | upsertSource (src : Source)
  | deleteSource (source_id : String)
  | upsertNode (node : GraphNode)
  | deleteNode (node_id : String)
  | deleteNodeCascade (node_id : String)
  | upsertEdge (edge : GraphEdge)
  | deleteEdge (edge_id : String)

/-- Apply one write operation (the cascade keeps only the final state). -/
def applyOp (s : FileStorage) : StorageOp → FileStorage
  | .upsertContainer c => upsert_container s c
  | .deleteContainer cid => delete_container s cid
  | .upsertSource src => upsert_source s src
  | .deleteSource sid => delete_source s sid
  | .upsertNode n => upsert_node s n
  | .deleteNode nid => delete_node s nid
  | .deleteNodeCascade nid => (delete_node_cascade s nid).2
  | .upsertEdge e => upsert_edge s e
  | .deleteEdge eid => delete_edge s eid

/-- Claim C4: deletion is monotone — no store operation ever removes an ID
from the tombstone set — and tombstoned IDs are isolated: a tombstoned ID
never appears (as the listed entity's own ID) in any list result for any
scope, even if re-upserted afterwards, because every list filters on the
current tombstone set. -/
theorem C4_tombstone_monotone_isolation :
    (∀ (s : FileStorage) (op : StorageOp), s.deleted ⊆ (applyOp s op).deleted) ∧
    (∀ (s : FileStorage) (x cid : String), x ∈ s.deleted →
      x ∉ (list_containers s).map (fun c => c.container_id) ∧
      x ∉ (list_sources s cid).map (fun src => src.source_id) ∧
      x ∉ (list_nodes s cid).map (fun n => n.node_id) ∧
      x ∉ (list_edges s cid).map (fun e => e.edge_id)) := by
  constructor
  · intro s op
    cases op with
    | upsertContainer c => exact fun y hy => hy
    | deleteContainer cid => exact deleted_subset_delete_container s cid
    | upsertSource src => exact fun y hy => hy
    | deleteSource sid => exact subset_addDeleted _ _
    | upsertNode n => exact fun y hy => hy
    | deleteNode nid => exact deleted_subset_delete_node s nid
    | deleteNodeCascade nid => exact deleted_subset_cascade s nid
    | upsertEdge e => exact fun y hy => hy
    | deleteEdge eid => exact subset_addDeleted _ _
  · intro s x cid hx
    refine ⟨?_, ?_, ?_, ?_⟩
    · intro hmem
      obtain ⟨c, hc, hcid⟩ := List.mem_map.mp hmem
      simp only [list_containers] at hc
      have h1 := mem_sortByKey (fun c => c.created_at) _ c hc
      have h2 := live_id_not_deleted (fun c => c.container_id) s.containers s.deleted c h1
      apply h2
      show c.container_id ∈ s.deleted
      rw [hcid]
      exact hx
    · intro hmem
      obtain ⟨src, hsrc, hid⟩ := List.mem_map.mp hmem
      simp only [list_sources] at hsrc
      have h1 := mem_sortByKey (fun src => src.created_at) _ src hsrc
      have h2 := List.mem_of_mem_filter h1
      have h3 := live_id_not_deleted (fun src => src.source_id) s.sources s.deleted src h2
      apply h3
      show src.source_id ∈ s.deleted
      rw [hid]
      exact hx
    · intro hmem
      obtain ⟨n, hn, hid⟩ := List.mem_map.mp hmem
      simp only [list_nodes] at hn
      have h1 := mem_sortByKey (fun n => n.created_at) _ n hn
      have h2 := List.mem_of_mem_filter h1
      have h3 := live_id_not_deleted (fun n => n.node_id) s.nodes s.deleted n h2
      apply h3
      show n.node_id ∈ s.deleted
      rw [hid]
      exact hx
    · intro hmem
      obtain ⟨e, he, hid⟩ := List.mem_map.mp hmem
      simp only [list_edges] at he
      have h2 := List.mem_of_mem_filter he
      have h3 := live_id_not_deleted (fun e => e.edge_id) s.edges s.deleted e h2
      apply h3
      show e.edge_id ∈ s.deleted
      rw [hid]
      exact hx

/-- Witness for C4: in `c7Store` the ID "X" is tombstoned; it is absent
from the node listing, and re-upserting "X" does not shrink the tombstone
set. -/
theorem C4_witness :
    "X" ∉ (list_nodes c7Store "c").map (fun n => n.node_id) ∧
    c7Store.deleted ⊆ (applyOp c7Store (StorageOp.upsertNode (mkNode "X" 9))).deleted :=
  ⟨(C4_tombstone_monotone_isolation.2 c7Store "X" "c" (by decide)).2.2.1,
   C4_tombstone_monotone_isolation.1 c7Store (StorageOp.upsertNode (mkNode "X" 9))⟩

/-! ### List ordering -/

/-- Store for the C2 counterexample: two edges appended in an order
opposite to their creation times. -/
def c2Store : FileStorage :=
  { containers := [mkCont],
    nodes := [mkNode "A" 1, mkNode "B" 2],
    edges := [mkEdge "e1" "A" "B" 5, mkEdge "e2" "B" "A" 3] }

/-- Claim C2 counterexample: `list_edges` does not order by creation time:
in `c2Store` the edge created at time 5 is listed before the edge created
at time 3 (log order), so the edge list operation is not ordered by
creation time ascending. -/
theorem C2_counterexample :
    (list_edges c2Store "c").map (fun e => e.created_at) = [5, 3] ∧
    ¬ List.Pairwise (fun a b => a ≤ b)
        ((list_edges c2Store "c").map (fun e => e.created_at)) := by
  decide

/-- Round-trip store: a container, two nodes and one edge written through
the upsert operations onto an empty store. -/
def rtStore : FileStorage :=
  upsert_edge
    (upsert_node (upsert_node (upsert_container {} mkCont) (mkNode "n1" 1))
      (mkNode "n2" 2))
    (mkEdge "e1" "n1" "n2" 3)

/-- Claim C2 (amended): container, source and node listings return the
live, most-recent-per-ID, scope-matching records ordered by creation time
ascending; the edge listing returns the live, most-recent-per-ID,
scope-matching records in log order, *not* sorted by creation time; the
round-trip — one container, two nodes, one edge — returns exactly the two
nodes and the one edge in creation order. -/
theorem C2_amended_list_ordering :
    (∀ (s : FileStorage) (cid : String),
      List.Pairwise (fun a b => a.created_at ≤ b.created_at) (list_nodes s cid)) ∧
    (∀ (s : FileStorage) (cid : String),
      List.Pairwise (fun a b => a.created_at ≤ b.created_at) (list_sources s cid)) ∧
    (∀ s : FileStorage,
      List.Pairwise (fun a b => a.created_at ≤ b.created_at) (list_containers s)) ∧
    (∀ (s : FileStorage) (cid : String), ∀ e ∈ list_edges s cid,
      e.container_id = cid ∧ e.edge_id ∉ s.deleted) ∧
    (list_nodes rtStore "c" = [mkNode "n1" 1, mkNode "n2" 2] ∧
     list_edges rtStore "c" = [mkEdge "e1" "n1" "n2" 3] ∧
     list_containers rtStore = [mkCont]) := by
  refine ⟨fun s cid => pairwise_sortByKey _ _, fun s cid => pairwise_sortByKey _ _,
    fun s => pairwise_sortByKey _ _, ?_, by decide, by decide, by decide⟩
  intro s cid e he
  have hfil := List.mem_filter.mp he
  refine ⟨eq_of_beq hfil.2, ?_⟩
  exact live_id_not_deleted (fun e => e.edge_id) s.edges s.deleted e hfil.1

/-- Witness for C2 (amended): the edge of the round-trip store is scoped
to "c" and not tombstoned. -/
theorem C2_amended_witness :
    (mkEdge "e1" "n1" "n2" 3).container_id = "c" ∧
    (mkEdge "e1" "n1" "n2" 3).edge_id ∉ rtStore.deleted :=
  C2_amended_list_ordering.2.2.2.1 rtStore "c" (mkEdge "e1" "n1" "n2" 3) (by decide)

/-! ### Agent document updates (src/rks/agent.py) -/

/-- Model of `models.NodeDocument`: partial Document-panel payload; `none` models a
field not provided (Python `exclude_unset`). -/
structure NodeDocument where
  title : Option String := none
  node_type : Option NodeType := none
  definition : Option String := none
  mechanism : Option String := none
  boundary_conditions : Option String := none
  assumptions : Option (List String) := none
  tags : Option (List String) := none
  state : Option NodeState := none
deriving DecidableEq

/-- The `setattr` loop of `CognitiveAgent.update_node_document`: apply the
provided fields of the partial document to the node. -/
def applyDoc (node : GraphNode) (doc : NodeDocument) : GraphNode :=
  { node with
    title := doc.title.getD node.title
    node_type := doc.node_type.getD node.node_type
    definition := doc.definition.getD node.definition
    mechanism := doc.mechanism.getD node.mechanism
    boundary_conditions := doc.boundary_conditions.getD node.boundary_conditions
    assumptions := doc.assumptions.getD node.assumptions
    tags := doc.tags.getD node.tags
    state := doc.state.getD node.state }

/-- Model of `CognitiveAgent.can_activate` (Python string truthiness of `strip()`
modelled by `· .trim ≠ ""`). -/
def can_activate (node : GraphNode) : Bool × List String :=
  let missing :=
    (if node.definition.trim = "" then ["Thiếu Definition"] else []) ++
    (if node.mechanism.trim = "" then ["Thiếu Mechanism"] else []) ++
    (if node.boundary_conditions.trim = "" then ["Thiếu Boundary Conditions"] else [])
  (missing.length == 0, missing)

/-- Model of `CognitiveAgent.compute_maturity`: document-field score, raised to at
least 3 when the node has at least 3 incident edges. -/
def compute_maturity (s : FileStorage) (node : GraphNode) : Nat :=
  let score :=
    (if node.definition.trim ≠ "" then 1 else 0) +
    (if node.mechanism.trim ≠ "" then 1 else 0) +
    (if node.boundary_conditions.trim ≠ "" then 1 else 0) +
    (if node.assumptions.length ≥ 1 then 1 else 0)
  let connected := (list_edges s node.container_id).filter
    (fun e => e.source_node_id == node.node_id || e.target_node_id == node.node_id)
  if connected.length ≥ 3 then max score 3 else score

/-- The node-transformation pipeline of `CognitiveAgent.update_node_document`:
field merge, ACTIVE-validation fallback to BUILD, EXPLORE-to-BUILD
promotion, `touch()` (`now`), maturity recomputation, version bump. -/
def updatedNode (s : FileStorage) (node0 : GraphNode) (doc : NodeDocument)
    (now : Nat) : GraphNode :=
  let node1 := applyDoc node0 doc
  let node2 :=
    if node1.state = NodeState.ACTIVE ∧ (can_activate node1).1 = false then
      { node1 with state := NodeState.BUILD }
    else node1
  let node3 :=
    if node2.state = NodeState.EXPLORE ∧ node2.definition.trim ≠ "" then
      { node2 with state := NodeState.BUILD }
    else node2
  let node4 := { node3 with updated_at := now }
  let node5 := { node4 with maturity_score := compute_maturity s node4 }
  { node5 with version := node5.version + 1 }

/-- Model of `CognitiveAgent.update_node_document`; `none` models the `KeyError`
raised for a missing node. -/
def update_node_document (s : FileStorage) (node_id : String) (doc : NodeDocument)
    (now : Nat) : Option (GraphNode × FileStorage) :=
  match get_node s node_id with
  | none => none
  | some node0 =>
      some (updatedNode s node0 doc now, upsert_node s (updatedNode s node0 doc now))

/-- A chain of document updates through the agent, each reading the store
produced by the previous one. -/
def applyDocUpdates (s : FileStorage) (node_id : String) :
    List (NodeDocument × Nat) → Option FileStorage
  | [] => some s
  | (doc, now) :: rest =>
      match update_node_document s node_id doc now with
      | none => none
      | some (_, s2) => applyDocUpdates s2 node_id rest

theorem updatedNode_version (s : FileStorage) (n : GraphNode) (doc : NodeDocument)
    (now : Nat) : (updatedNode s n doc now).version = n.version + 1 := by
  simp only [updatedNode]
  split <;> split <;> simp [applyDoc]

theorem updatedNode_node_id (s : FileStorage) (n : GraphNode) (doc : NodeDocument)
    (now : Nat) : (updatedNode s n doc now).node_id = n.node_id := by
  simp only [updatedNode]
  split <;> split <;> simp [applyDoc]

theorem update_node_document_step (s : FileStorage) (nid : String)
    (doc : NodeDocument) (now : Nat) (n : GraphNode) (h : get_node s nid = some n) :
    update_node_document s nid doc now
      = some (updatedNode s n doc now, upsert_node s (updatedNode s n doc now)) ∧
    (updatedNode s n doc now).version = n.version + 1 ∧
    get_node (upsert_node s (updatedNode s n doc now)) nid
      = some (updatedNode s n doc now) := by
  have hid : n.node_id = nid := (get_node_some h).1
  have hdel : nid ∉ s.deleted := (get_node_some h).2.2
  refine ⟨?_, updatedNode_version s n doc now, ?_⟩
  · unfold update_node_document
    rw [h]
  · exact get_node_upsert_self s (updatedNode s n doc now) nid
      (by rw [updatedNode_node_id]; exact hid) hdel

/-- Claim C9: every successful document update through the agent increases
the node's stored version by exactly 1 and never decreases it, so a chain
of N successful partial-field updates leaves the version at the initial
version plus N (ten updates: initial + 10). -/
theorem C9_version_increments (nid : String) :
    ∀ (updates : List (NodeDocument × Nat)) (s : FileStorage) (n : GraphNode),
      get_node s nid = some n →
      (applyDocUpdates s nid updates).bind
        (fun s2 => (get_node s2 nid).map (fun m => m.version))
        = some (n.version + updates.length) := by
  intro updates
  induction updates with
  | nil =>
      intro s n h
      simp [applyDocUpdates, h]
  | cons u rest ih =>
      intro s n h
      obtain ⟨doc, now⟩ := u
      obtain ⟨hupd, hver, hget⟩ := update_node_document_step s nid doc now n h
      simp only [applyDocUpdates, hupd]
      rw [ih (upsert_node s (updatedNode s n doc now)) (updatedNode s n doc now) hget]
      simp only [Option.some.injEq, List.length_cons]
      omega

/-- Store for the C9 witness: one node "N" at version 1. -/
def c9Store : FileStorage :=
  { containers := [mkCont], nodes := [mkNode "N" 1] }

/-- Ten successive partial-field updates (each sets only `definition`). -/
def c9Updates : List (NodeDocument × Nat) :=
  [({ definition := some "d1" }, 11), ({ definition := some "d2" }, 12),
   ({ definition := some "d3" }, 13), ({ definition := some "d4" }, 14),
   ({ definition := some "d5" }, 15), ({ definition := some "d6" }, 16),
   ({ definition := some "d7" }, 17), ({ definition := some "d8" }, 18),
   ({ definition := some "d9" }, 19), ({ definition := some "d10" }, 20)]

/-- Witness for C9: ten partial updates to "N" (initial version 1) leave
the stored version at 11. -/
theorem C9_witness :
    (applyDocUpdates c9Store "N" c9Updates).bind
      (fun s2 => (get_node s2 "N").map (fun m => m.version)) = some 11 :=
  C9_version_increments "N" c9Updates c9Store (mkNode "N" 1) (by decide)

end RKS
